import Mathlib

/-!
Verification of the paragraph-accumulation core of `booksonpaste` (bop.py).

Python strings are modelled as lists of characters (`Str`), since Python
indexes and measures strings by code points.  The token-counting oracle
(`count_tokens`, backed by tiktoken) is an external collaborator and is
modelled as an opaque parameter `tc : Str → Nat`.  The random starting
index chosen by `random.randint` is modelled as an explicit parameter
`start` with `start < pool.length`.
-/

/-- A Python string: a sequence of code points. -/
abbrev Str := List Char

/-- The measurement mode of `generate_text` (`mode` argument). -/
inductive Mode where
  | chars
  | tokens
deriving DecidableEq

/-- The two-character paragraph separator `"\n\n"`. -/
def newline2 : Str := ['\n', '\n']

/-- The per-paragraph size used by the accumulation loop in `generate_text`:
`count_tokens(paragraph)` in tokens mode, `len(paragraph + "\n\n")` in chars
mode (bop.py lines 194-197). -/
def pieceSize (mode : Mode) (tc : Str → Nat) (p : Str) : Nat :=
  match mode with
  | Mode.tokens => tc p
  | Mode.chars => (p ++ newline2).length

/-- Python slice `s[:k]` for an arbitrary integer `k`: for `k ≥ 0` the first
`min k (len s)` characters; for `k < 0` the first `max (len s + k) 0`
characters (a negative stop counts from the end). -/
def pySliceTake (s : Str) (k : Int) : Str :=
  if 0 ≤ k then s.take k.toNat else s.take (s.length - (-k).toNat)

/-- Python `s.split()`: whitespace-delimited words, empty fragments dropped. -/
def pyWords (s : Str) : List Str :=
  (s.splitOnP (fun c => c.isWhitespace)).filter (fun w => w ≠ [])

/-- The greedy word loop of the tokens-mode branch of `generate_text`
(bop.py lines 204-212): accept words while the running sum of
`count_tokens(word + " ")` stays within `target`, stopping at the first word
that would overflow. -/
def takeWords (tc : Str → Nat) (target : Int) : List Str → Nat → List Str
  | [], _ => []
  | w :: ws, psize =>
    if (psize : Int) + (tc (w ++ [' ']) : Int) > target then []
    else w :: takeWords tc target ws (psize + tc (w ++ [' ']))

/-- The list of pieces the first-paragraph-overflow branch of `generate_text`
appends to `result` (bop.py lines 202-216): in tokens mode the accepted words
joined by single spaces plus `"\n\n"` (nothing if no word fits); in chars mode
`paragraph[:target_size - 2] + "\n\n"`. -/
def fragPieces (mode : Mode) (tc : Str → Nat) (p : Str) (target : Int) : List Str :=
  match mode with
  | Mode.tokens =>
    if (takeWords tc target (pyWords p) 0).isEmpty then []
    else [List.intercalate [' '] (takeWords tc target (pyWords p) 0) ++ newline2]
  | Mode.chars => [pySliceTake p (target - 2) ++ newline2]

/-- The measured size of the overflow fragment: in tokens mode the final
`partial_size` of the greedy word loop, in chars mode the character length of
the appended piece. -/
def fragSize (mode : Mode) (tc : Str → Nat) (p : Str) (target : Int) : Nat :=
  match mode with
  | Mode.tokens => ((takeWords tc target (pyWords p) 0).map (fun w => tc (w ++ [' ']))).sum
  | Mode.chars => (pySliceTake p (target - 2) ++ newline2).length

/-- The `while True` accumulation loop of `generate_text` (bop.py lines
191-229), with explicit fuel.  State: `idx` is `current_idx`, `cur` is
`current_size`, `acc` is `result`.  The loop body: measure the paragraph at
`idx`; on overflow append the overflow fragment if `result` is empty and stop;
otherwise append the paragraph plus separator, advance the index modulo the
pool length, and stop if the index has returned to `start`. -/
def genLoop (pool : List Str) (target : Int) (mode : Mode) (tc : Str → Nat) (start : Nat) :
    Nat → Nat → Nat → List Str → List Str
  | 0, _, _, acc => acc
  | fuel + 1, idx, cur, acc =>
    if (cur : Int) + (pieceSize mode tc (pool.getD idx []) : Int) > target then
      if acc.isEmpty then acc ++ fragPieces mode tc (pool.getD idx []) target else acc
    else
      if (idx + 1) % pool.length = start then acc ++ [pool.getD idx [] ++ newline2]
      else
        genLoop pool target mode tc start fuel ((idx + 1) % pool.length)
          (cur + pieceSize mode tc (pool.getD idx [])) (acc ++ [pool.getD idx [] ++ newline2])

/-- The accumulation performed by `generate_text(target, mode)` (bop.py lines
186-231) on a given paragraph pool, starting at index `start`: run the loop and
return `"".join(result)`.  Fuel `pool.length` suffices: the loop stops at the
latest when the cursor returns to `start`. -/
def generate_text (pool : List Str) (target : Int) (mode : Mode) (tc : Str → Nat)
    (start : Nat) : Str :=
  (genLoop pool target mode tc start pool.length start 0 []).flatten

/-- Structural reformulation of the loop on the rotated pool: process the
paragraphs in cyclic order from `start` as a plain list, carrying
`current_size` and a flag recording whether `result` is still empty.  Returns
the appended pieces together with the final accumulated measured size
(`current_size`, plus the fragment's measured size when the overflow branch
fires on the first candidate). -/
def accFull (target : Int) (mode : Mode) (tc : Str → Nat) : List Str → Nat → Bool → List Str × Nat
  | [], cur, _ => ([], cur)
  | p :: ps, cur, first =>
    if (cur : Int) + (pieceSize mode tc p : Int) > target then
      if first then (fragPieces mode tc p target, cur + fragSize mode tc p target)
      else ([], cur)
    else
      ((p ++ newline2) :: (accFull target mode tc ps (cur + pieceSize mode tc p) false).1,
        (accFull target mode tc ps (cur + pieceSize mode tc p) false).2)

/-- Total of the tokens-mode word measures `count_tokens(word + " ")`. -/
def wordsSize (tc : Str → Nat) (ws : List Str) : Nat :=
  (ws.map (fun w => tc (w ++ [' ']))).sum

theorem getD_eq_get (l : List Str) (i : Nat) (h : i < l.length) : l.getD i [] = l[i] := by
  simp [List.getD_eq_getElem?_getD, List.getElem?_eq_getElem h]

theorem genLoop_eq_accFull (pool : List Str) (target : Int) (mode : Mode) (tc : Str → Nat)
    (start : Nat) (hs : start < pool.length) :
    ∀ (fuel k cur : Nat) (acc : List Str), k < pool.length → pool.length - k ≤ fuel →
      genLoop pool target mode tc start fuel ((start + k) % pool.length) cur acc
        = acc ++ (accFull target mode tc ((pool.rotate start).drop k) cur acc.isEmpty).1 := by
  intro fuel
  induction fuel with
  | zero =>
    intro k cur acc hk hf
    exact absurd hf (by omega)
  | succ f ih =>
    intro k cur acc hk hf
    have hn : 0 < pool.length := Nat.lt_of_le_of_lt (Nat.zero_le start) hs
    have hkr : k < (pool.rotate start).length := by
      rw [List.length_rotate]; exact hk
    have hidx : (start + k) % pool.length < pool.length := Nat.mod_lt _ hn
    have hdrop : (pool.rotate start).drop k
        = (pool.rotate start)[k] :: (pool.rotate start).drop (k + 1) :=
      List.drop_eq_getElem_cons hkr
    have hget : pool.getD ((start + k) % pool.length) [] = (pool.rotate start)[k] := by
      rw [List.getElem_rotate, getD_eq_get _ _ hidx]
      congr 1
      rw [Nat.add_comm]
    rw [hdrop, ← hget]
    simp only [genLoop, accFull]
    by_cases hc :
        (cur : Int) + (pieceSize mode tc (pool.getD ((start + k) % pool.length) []) : Int)
          > target
    · rw [if_pos hc, if_pos hc]
      cases hacc : acc.isEmpty
      · simp
      · simp
    · rw [if_neg hc, if_neg hc]
      have hstep : ((start + k) % pool.length + 1) % pool.length
          = (start + (k + 1)) % pool.length := by
        rw [Nat.mod_add_mod]
        congr 1
      rw [hstep]
      by_cases hk1 : k + 1 = pool.length
      · have hwrap : (start + (k + 1)) % pool.length = start := by
          rw [hk1, Nat.add_mod_right, Nat.mod_eq_of_lt hs]
        rw [if_pos hwrap]
        have hend : (pool.rotate start).drop (k + 1) = [] := by
          rw [hk1]
          rw [show pool.length = (pool.rotate start).length from (List.length_rotate pool start).symm]
          exact List.drop_length _
        rw [hend]
        simp [accFull]
      · have hk2 : k + 1 < pool.length := by omega
        have hne : (start + (k + 1)) % pool.length ≠ start := by
          intro h
          have hdm := Nat.div_add_mod (start + (k + 1)) pool.length
          rw [h] at hdm
          rcases Nat.eq_zero_or_pos ((start + (k + 1)) / pool.length) with hq | hq
          · rw [hq] at hdm
            omega
          · have hge : pool.length ≤ pool.length * ((start + (k + 1)) / pool.length) :=
              Nat.le_mul_of_pos_right pool.length hq
            omega
        rw [if_neg hne]
        rw [ih (k + 1) (cur + pieceSize mode tc (pool.getD ((start + k) % pool.length) []))
          (acc ++ [pool.getD ((start + k) % pool.length) [] ++ newline2]) hk2 (by omega)]
        have hae : (acc ++ [pool.getD ((start + k) % pool.length) [] ++ newline2]).isEmpty
            = false := by
          cases acc <;> rfl
        rw [hae]
        simp

theorem generate_text_eq_accFull (pool : List Str) (target : Int) (mode : Mode)
    (tc : Str → Nat) (start : Nat) (hpool : pool ≠ []) (hs : start < pool.length) :
    generate_text pool target mode tc start
      = (accFull target mode tc (pool.rotate start) 0 true).1.flatten := by
  have hn : 0 < pool.length := List.length_pos.mpr hpool
  have h := genLoop_eq_accFull pool target mode tc start hs pool.length 0 0 [] hn (by omega)
  rw [Nat.add_zero, Nat.mod_eq_of_lt hs, List.drop_zero] at h
  unfold generate_text
  rw [h]
  rfl

theorem pySliceTake_length_le (s : Str) (k : Int) (hk : 0 ≤ k) :
    ((pySliceTake s k).length : Int) ≤ k := by
  unfold pySliceTake
  rw [if_pos hk]
  have h := List.length_take_le k.toNat s
  have h2 : (k.toNat : Int) = k := Int.toNat_of_nonneg hk
  omega

theorem accFull_first_overflow (target : Int) (mode : Mode) (tc : Str → Nat)
    (l : List Str) (cur : Nat) (hl : l ≠ [])
    (hc : (cur : Int) + (pieceSize mode tc (l.getD 0 []) : Int) > target) :
    (accFull target mode tc l cur true).1 = fragPieces mode tc (l.getD 0 []) target
      ∧ (accFull target mode tc l cur true).2 = cur + fragSize mode tc (l.getD 0 []) target := by
  match l with
  | [] => exact absurd rfl hl
  | p :: ps =>
    have hp : (p :: ps).getD 0 [] = p := rfl
    rw [hp] at hc ⊢
    simp only [accFull]
    rw [if_pos hc]
    exact ⟨rfl, rfl⟩

theorem accFull_false_shape (target : Int) (mode : Mode) (tc : Str → Nat) :
    ∀ (l : List Str) (cur : Nat), ∃ k ≤ l.length,
      (accFull target mode tc l cur false).1 = (l.take k).map (fun p => p ++ newline2) := by
  intro l
  induction l with
  | nil =>
    intro cur
    exact ⟨0, by omega, rfl⟩
  | cons p ps ih =>
    intro cur
    by_cases hc : (cur : Int) + (pieceSize mode tc p : Int) > target
    · refine ⟨0, by omega, ?_⟩
      simp [accFull, if_pos hc]
    · obtain ⟨k, hk, hsh⟩ := ih (cur + pieceSize mode tc p)
      refine ⟨k + 1, by simpa using hk, ?_⟩
      simp only [accFull, if_neg hc]
      simp [hsh]

theorem takeWords_le (tc : Str → Nat) (target : Int) :
    ∀ (ws : List Str) (psize : Nat), (psize : Int) ≤ target →
      ((psize + wordsSize tc (takeWords tc target ws psize) : Nat) : Int) ≤ target := by
  intro ws
  induction ws with
  | nil =>
    intro psize h
    simpa [takeWords, wordsSize] using h
  | cons w ws ih =>
    intro psize h
    by_cases hw : (psize : Int) + (tc (w ++ [' ']) : Int) > target
    · simpa [takeWords, if_pos hw, wordsSize] using h
    · have h2 : ((psize + tc (w ++ [' ']) : Nat) : Int) ≤ target := by push_cast; omega
      have h3 := ih (psize + tc (w ++ [' '])) h2
      simp only [takeWords, if_neg hw]
      simp only [wordsSize, List.map_cons, List.sum_cons] at h3 ⊢
      push_cast at h3 ⊢
      omega

theorem accFull_tokens_size (target : Int) (tc : Str → Nat) :
    ∀ (l : List Str) (cur : Nat) (first : Bool), (first = true → cur = 0) →
      (cur : Int) ≤ target → ((accFull target Mode.tokens tc l cur first).2 : Int) ≤ target := by
  intro l
  induction l with
  | nil =>
    intro cur first _ hcur
    simpa [accFull] using hcur
  | cons p ps ih =>
    intro cur first hfirst hcur
    by_cases hc : (cur : Int) + (pieceSize Mode.tokens tc p : Int) > target
    · cases first with
      | false => simpa [accFull, if_pos hc] using hcur
      | true =>
        have hc0 : cur = 0 := hfirst rfl
        subst hc0
        simp only [accFull, if_pos hc, if_pos rfl]
        have := takeWords_le tc target (pyWords p) 0 (by simpa using hcur)
        simp only [fragSize, wordsSize] at this ⊢
        simpa using this
    · have h2 : ((cur + pieceSize Mode.tokens tc p : Nat) : Int) ≤ target := by
        push_cast at hc ⊢
        omega
      have h3 := ih (cur + pieceSize Mode.tokens tc p) false (by simp) h2
      simpa [accFull, if_neg hc] using h3

theorem accFull_chars_len (target : Int) (tc : Str → Nat) (ht : 2 ≤ target) :
    ∀ (l : List Str) (cur : Nat) (first : Bool), (first = true → cur = 0) →
      (cur : Int) ≤ target →
      (((accFull target Mode.chars tc l cur first).1.flatten.length : Nat) : Int)
        + (cur : Int) ≤ target := by
  intro l
  induction l with
  | nil =>
    intro cur first _ hcur
    simpa [accFull] using hcur
  | cons p ps ih =>
    intro cur first hfirst hcur
    by_cases hc : (cur : Int) + (pieceSize Mode.chars tc p : Int) > target
    · cases first with
      | false => simpa [accFull, if_pos hc] using hcur
      | true =>
        have hc0 : cur = 0 := hfirst rfl
        subst hc0
        have hpieces : (accFull target Mode.chars tc (p :: ps) 0 true).1
            = [pySliceTake p (target - 2) ++ newline2] := by
          simp only [accFull]
          rw [if_pos hc]
          rfl
        rw [hpieces]
        have hsl := pySliceTake_length_le p (target - 2) (by omega)
        simp only [List.flatten_cons, List.flatten_nil, List.append_nil,
          List.length_append, newline2, List.length_cons, List.length_nil]
        push_cast
        omega
    · have h2 : ((cur + pieceSize Mode.chars tc p : Nat) : Int) ≤ target := by
        push_cast at hc ⊢
        omega
      have h3 := ih (cur + pieceSize Mode.chars tc p) false (by simp) h2
      simp only [accFull, if_neg hc, List.flatten_cons] at h3 ⊢
      simp only [pieceSize, List.length_append, newline2] at h3 ⊢
      push_cast at h3 ⊢
      simp only [List.length_cons, List.length_nil] at h3 ⊢
      omega

theorem accFull_total_fit (target : Int) (mode : Mode) (tc : Str → Nat) :
    ∀ (l : List Str) (cur : Nat) (first : Bool),
      ((cur + (l.map (pieceSize mode tc)).sum : Nat) : Int) ≤ target →
      (accFull target mode tc l cur first).1 = l.map (fun p => p ++ newline2) := by
  intro l
  induction l with
  | nil =>
    intro cur first _
    simp [accFull]
  | cons p ps ih =>
    intro cur first h
    simp only [List.map_cons, List.sum_cons] at h
    rw [Nat.cast_add, Nat.cast_add] at h
    have hc : ¬ ((cur : Int) + (pieceSize mode tc p : Int) > target) := by
      omega
    have h2 : ((cur + pieceSize mode tc p + (ps.map (pieceSize mode tc)).sum : Nat) : Int)
        ≤ target := by
      rw [Nat.cast_add, Nat.cast_add]
      omega
    have h3 := ih (cur + pieceSize mode tc p) false h2
    simp only [accFull, if_neg hc, List.map_cons]
    simp [h3]

theorem takeWords_spec (tc : Str → Nat) (target : Int) :
    ∀ (ws : List Str) (psize : Nat), (psize : Int) ≤ target →
      ∃ k ≤ ws.length, takeWords tc target ws psize = ws.take k
        ∧ ((psize : Int) + (wordsSize tc (ws.take k) : Int) ≤ target)
        ∧ (k = ws.length ∨ target < (psize : Int) + (wordsSize tc (ws.take (k + 1)) : Int)) := by
  intro ws
  induction ws with
  | nil =>
    intro psize h
    exact ⟨0, by omega, rfl, by simpa [wordsSize] using h, Or.inl rfl⟩
  | cons w ws ih =>
    intro psize h
    by_cases hw : (psize : Int) + (tc (w ++ [' ']) : Int) > target
    · refine ⟨0, by omega, ?_, ?_, Or.inr ?_⟩
      · simp [takeWords, if_pos hw]
      · simpa [wordsSize] using h
      · simpa [wordsSize] using hw
    · have hle : ((psize + tc (w ++ [' ']) : Nat) : Int) ≤ target := by push_cast; omega
      obtain ⟨k, hk, heq, hsum, hstop⟩ := ih (psize + tc (w ++ [' '])) hle
      refine ⟨k + 1, by simpa using hk, ?_, ?_, ?_⟩
      · simp [takeWords, if_neg hw, heq]
      · rw [List.take_succ_cons]
        simp only [wordsSize, List.map_cons, List.sum_cons] at hsum ⊢
        push_cast at hsum ⊢
        omega
      · rcases hstop with hstop | hstop
        · exact Or.inl (by simp [hstop])
        · refine Or.inr ?_
          rw [List.take_succ_cons]
          simp only [wordsSize, List.map_cons, List.sum_cons] at hstop ⊢
          push_cast at hstop ⊢
          omega

theorem accFull_chars_pieces (target : Int) (tc : Str → Nat) :
    ∀ (l : List Str) (cur : Nat) (first : Bool) (q : Str),
      q ∈ (accFull target Mode.chars tc l cur first).1 → ∃ s, q = s ++ newline2 := by
  intro l
  induction l with
  | nil =>
    intro cur first q hq
    simp [accFull] at hq
  | cons p ps ih =>
    intro cur first q hq
    by_cases hc : (cur : Int) + (pieceSize Mode.chars tc p : Int) > target
    · rw [show accFull target Mode.chars tc (p :: ps) cur first
          = if first then (fragPieces Mode.chars tc p target,
              cur + fragSize Mode.chars tc p target) else ([], cur) by
          simp only [accFull]; rw [if_pos hc]] at hq
      cases first with
      | false => simp at hq
      | true =>
        simp [fragPieces] at hq
        exact ⟨pySliceTake p (target - 2), hq⟩
    · rw [show accFull target Mode.chars tc (p :: ps) cur first
          = ((p ++ newline2) ::
              (accFull target Mode.chars tc ps (cur + pieceSize Mode.chars tc p) false).1,
            (accFull target Mode.chars tc ps (cur + pieceSize Mode.chars tc p) false).2) by
          simp only [accFull]; rw [if_neg hc]] at hq
      simp only [List.mem_cons] at hq
      rcases hq with hq | hq
      · exact ⟨p, hq⟩
      · exact ih (cur + pieceSize Mode.chars tc p) false q hq

theorem accFull_chars_ne (target : Int) (tc : Str → Nat) (l : List Str) (cur : Nat)
    (hl : l ≠ []) : (accFull target Mode.chars tc l cur true).1 ≠ [] := by
  match l with
  | [] => exact absurd rfl hl
  | p :: ps =>
    simp only [accFull]
    by_cases hc : (cur : Int) + (pieceSize Mode.chars tc p : Int) > target
    · rw [if_pos hc]
      simp [fragPieces]
    · rw [if_neg hc]
      simp

theorem flatten_ends_newline2 :
    ∀ (pieces : List Str), pieces ≠ [] → (∀ q ∈ pieces, ∃ s, q = s ++ newline2) →
      ∃ s, pieces.flatten = s ++ newline2 := by
  intro pieces
  induction pieces with
  | nil =>
    intro h _
    exact absurd rfl h
  | cons x xs ih =>
    intro _ hall
    by_cases hxs : xs = []
    · subst hxs
      obtain ⟨s, hs⟩ := hall x (by simp)
      exact ⟨s, by simp [hs]⟩
    · obtain ⟨s, hs⟩ := ih hxs (fun q hq => hall q (by simp [hq]))
      exact ⟨x ++ s, by simp [hs]⟩

theorem rotate_getD_zero (pool : List Str) (start : Nat) (hs : start < pool.length) :
    (pool.rotate start).getD 0 [] = pool.getD start [] := by
  have h0 : 0 < (pool.rotate start).length := by
    rw [List.length_rotate]
    omega
  have hidx : (0 + start) % pool.length = start := by
    rw [Nat.zero_add, Nat.mod_eq_of_lt hs]
  rw [getD_eq_get _ _ h0, List.getElem_rotate, getD_eq_get _ _ hs]
  simp only [hidx]

theorem rotate_ne_nil (pool : List Str) (start : Nat) (hpool : pool ≠ []) :
    pool.rotate start ≠ [] := by
  intro h
  have := List.length_rotate pool start
  rw [h] at this
  exact hpool (List.length_eq_zero.mp this.symm)

theorem chars_overflow_result (pool : List Str) (target : Int) (tc : Str → Nat)
    (start : Nat) (hpool : pool ≠ []) (hs : start < pool.length)
    (hov : (pieceSize Mode.chars tc (pool.getD start []) : Int) > target) :
    generate_text pool target Mode.chars tc start
      = pySliceTake (pool.getD start []) (target - 2) ++ newline2 := by
  rw [generate_text_eq_accFull pool target Mode.chars tc start hpool hs]
  have hrne := rotate_ne_nil pool start hpool
  have hov0 : ((0 : Nat) : Int)
      + (pieceSize Mode.chars tc ((pool.rotate start).getD 0 []) : Int) > target := by
    rw [rotate_getD_zero pool start hs]
    push_cast at hov ⊢
    omega
  obtain ⟨h1, _⟩ := accFull_first_overflow target Mode.chars tc (pool.rotate start) 0 hrne hov0
  rw [h1, rotate_getD_zero pool start hs]
  simp [fragPieces]

/-- Claim C1, counterexample: in chars mode with pool `["abc"]`, target `1` and
start `0`, the first paragraph overflows and `paragraph[:1-2]` is a Python
negative slice taking all but the last character, so the returned string is
`"ab\n\n"` of length 4 > 1: the measured size of the result exceeds the
target. -/
theorem claim1_counterexample :
    (generate_text [['a', 'b', 'c']] 1 Mode.chars (fun _ => 0) 0).length = 4
      ∧ ¬ ((4 : Int) ≤ 1) := by
  constructor
  · rfl
  · decide

/-- Claim C1 (amended): for every non-empty pool, every start index and every
token oracle, in chars mode with target ≥ 2 the character length of the string
returned by the accumulation is ≤ target; in tokens mode with target ≥ 0 the
result is the flattening of the accumulated pieces and the algorithm's
accumulated measured size (the running sum of per-paragraph token counts, plus
the per-word token counts of the overflow fragment) is ≤ target. -/
theorem claim1_amended_size_bound (pool : List Str) (target : Int) (tc : Str → Nat)
    (start : Nat) (hpool : pool ≠ []) (hs : start < pool.length) :
    (2 ≤ target → ((generate_text pool target Mode.chars tc start).length : Int) ≤ target)
    ∧ (0 ≤ target →
        generate_text pool target Mode.tokens tc start
          = (accFull target Mode.tokens tc (pool.rotate start) 0 true).1.flatten
        ∧ ((accFull target Mode.tokens tc (pool.rotate start) 0 true).2 : Int) ≤ target) := by
  constructor
  · intro ht
    rw [generate_text_eq_accFull pool target Mode.chars tc start hpool hs]
    have h := accFull_chars_len target tc ht (pool.rotate start) 0 true (fun _ => rfl)
      (by push_cast; omega)
    push_cast at h ⊢
    omega
  · intro ht
    refine ⟨generate_text_eq_accFull pool target Mode.tokens tc start hpool hs, ?_⟩
    exact accFull_tokens_size target tc (pool.rotate start) 0 true (fun _ => rfl)
      (by push_cast; omega)

theorem claim1_amended_size_bound_witness :
    ([['a', 'b']] : List Str) ≠ [] ∧
      ((2 ≤ (5 : Int) →
          ((generate_text [['a', 'b']] 5 Mode.chars (fun s => s.length) 0).length : Int) ≤ 5)
      ∧ (0 ≤ (5 : Int) →
          generate_text [['a', 'b']] 5 Mode.tokens (fun s => s.length) 0
            = (accFull 5 Mode.tokens (fun s => s.length) ([['a', 'b']].rotate 0) 0 true).1.flatten
          ∧ ((accFull 5 Mode.tokens (fun s => s.length) ([['a', 'b']].rotate 0) 0 true).2 : Int)
              ≤ 5)) :=
  ⟨by decide, claim1_amended_size_bound [['a', 'b']] 5 (fun s => s.length) 0 (by decide) (by decide)⟩

/-- Claim C2, counterexample: pool `["abc"]`, target `1`, chars mode, start
`0`.  The claim says the split takes `max(remainingBudget - 2, 0) = 0`
characters, so the result would be `"\n\n"`; the code computes
`"abc"[:-1] = "ab"` and returns `"ab\n\n"`. -/
theorem claim2_counterexample :
    generate_text [['a', 'b', 'c']] 1 Mode.chars (fun _ => 0) 0 = ['a', 'b', '\n', '\n']
      ∧ (['a', 'b', '\n', '\n'] : Str) ≠ ['\n', '\n'] := by
  constructor
  · rfl
  · decide

/-- Claim C2 (amended): in chars mode, when the first candidate paragraph
overflows the budget, the split computes `paragraph[:remainingBudget - 2]`
under Python slice semantics and appends the separator: for
remainingBudget ≥ 2 this is the first `remainingBudget - 2` characters
(clamped to the paragraph length); for remainingBudget < 2 the negative slice
keeps all but the last `2 - remainingBudget` characters instead of clamping
to zero. -/
theorem claim2_amended_chars_overflow_slice (pool : List Str) (target : Int) (tc : Str → Nat)
    (start : Nat) (hpool : pool ≠ []) (hs : start < pool.length)
    (hov : (pieceSize Mode.chars tc (pool.getD start []) : Int) > target) :
    generate_text pool target Mode.chars tc start
      = pySliceTake (pool.getD start []) (target - 2) ++ newline2
    ∧ (2 ≤ target → pySliceTake (pool.getD start []) (target - 2)
        = (pool.getD start []).take (target - 2).toNat)
    ∧ (target < 2 → pySliceTake (pool.getD start []) (target - 2)
        = (pool.getD start []).take
            ((pool.getD start []).length - (2 - target).toNat)) := by
  refine ⟨chars_overflow_result pool target tc start hpool hs hov, ?_, ?_⟩
  · intro ht
    unfold pySliceTake
    rw [if_pos (by omega)]
  · intro ht
    unfold pySliceTake
    rw [if_neg (by omega)]
    have hneg : -(target - 2) = 2 - target := by ring
    rw [hneg]

theorem claim2_amended_chars_overflow_slice_witness :
    (pieceSize Mode.chars (fun _ => 0) (([['a', 'b', 'c']] : List Str).getD 0 []) : Int) > 2 ∧
      (generate_text [['a', 'b', 'c']] 2 Mode.chars (fun _ => 0) 0
          = pySliceTake (([['a', 'b', 'c']] : List Str).getD 0 []) (2 - 2) ++ newline2
      ∧ (2 ≤ (2 : Int) → pySliceTake (([['a', 'b', 'c']] : List Str).getD 0 []) (2 - 2)
          = (([['a', 'b', 'c']] : List Str).getD 0 []).take ((2 : Int) - 2).toNat)
      ∧ ((2 : Int) < 2 → pySliceTake (([['a', 'b', 'c']] : List Str).getD 0 []) (2 - 2)
          = (([['a', 'b', 'c']] : List Str).getD 0 []).take
              ((([['a', 'b', 'c']] : List Str).getD 0 []).length - ((2 : Int) - (2 : Int)).toNat))) :=
  ⟨by decide, claim2_amended_chars_overflow_slice [['a', 'b', 'c']] 2 (fun _ => 0) 0
    (by decide) (by decide) (by decide)⟩

/-- Claim C3, counterexample: `generate_text` contains no check of the target
budget; with pool `["abc"]`, target `0` and chars mode the accumulation runs,
computes `"abc"[:-2] = "a"` in the overflow branch, and returns the non-empty
string `"a\n\n"` — no rejection occurs and text is produced. -/
theorem claim3_counterexample :
    generate_text [['a', 'b', 'c']] 0 Mode.chars (fun _ => 0) 0 = ['a', '\n', '\n']
      ∧ (['a', '\n', '\n'] : Str) ≠ [] := by
  constructor
  · rfl
  · decide

/-- Claim C3 (amended): `generate_text` does not reject a target ≤ 0;
accumulation begins, the first candidate always overflows in chars mode, and
the call returns the Python-sliced fragment `paragraph[:target - 2]` of the
start paragraph followed by the separator — a non-empty string, so text is
produced. -/
theorem claim3_amended_no_rejection (pool : List Str) (target : Int) (tc : Str → Nat)
    (start : Nat) (hpool : pool ≠ []) (hs : start < pool.length) (ht : target ≤ 0) :
    generate_text pool target Mode.chars tc start
      = pySliceTake (pool.getD start []) (target - 2) ++ newline2
    ∧ generate_text pool target Mode.chars tc start ≠ [] := by
  have hov : (pieceSize Mode.chars tc (pool.getD start []) : Int) > target := by
    have h2 : 2 ≤ pieceSize Mode.chars tc (pool.getD start []) := by
      simp [pieceSize, newline2]
    push_cast at h2 ⊢
    omega
  have h1 := chars_overflow_result pool target tc start hpool hs hov
  refine ⟨h1, ?_⟩
  rw [h1]
  simp [newline2]

theorem claim3_amended_no_rejection_witness :
    ((0 : Int) ≤ 0) ∧
      (generate_text [['a', 'b', 'c']] 0 Mode.chars (fun _ => 0) 0
          = pySliceTake (([['a', 'b', 'c']] : List Str).getD 0 []) ((0 : Int) - 2) ++ newline2
      ∧ generate_text [['a', 'b', 'c']] 0 Mode.chars (fun _ => 0) 0 ≠ []) :=
  ⟨by decide, claim3_amended_no_rejection [['a', 'b', 'c']] 0 (fun _ => 0) 0
    (by decide) (by decide) (by decide)⟩

/-- Claim C4: the accumulation loop terminates.  First conjunct: any fuel of at
least `pool.length` iterations gives the same result as exactly `pool.length`,
i.e. the loop always stops within one full cycle (no infinite loop).  Second
conjunct: when the pool's total measured size fits within the target (so no
candidate ever overflows), the loop stops exactly upon the cursor returning to
`start`, having appended every pool paragraph once in cyclic order — a
shorter-than-requested result, not an error. -/
theorem claim4_loop_terminates (pool : List Str) (target : Int) (mode : Mode)
    (tc : Str → Nat) (start : Nat) (hpool : pool ≠ []) (hs : start < pool.length) :
    (∀ fuel, pool.length ≤ fuel →
      genLoop pool target mode tc start fuel start 0 []
        = genLoop pool target mode tc start pool.length start 0 [])
    ∧ (((pool.map (pieceSize mode tc)).sum : Int) ≤ target →
        generate_text pool target mode tc start
          = ((pool.rotate start).map (fun p => p ++ newline2)).flatten) := by
  have hn : 0 < pool.length := List.length_pos.mpr hpool
  constructor
  · intro fuel hfuel
    have h1 := genLoop_eq_accFull pool target mode tc start hs fuel 0 0 [] hn (by omega)
    have h2 := genLoop_eq_accFull pool target mode tc start hs pool.length 0 0 [] hn (by omega)
    rw [Nat.add_zero, Nat.mod_eq_of_lt hs] at h1 h2
    rw [h1, h2]
  · intro htot
    rw [generate_text_eq_accFull pool target mode tc start hpool hs]
    have hperm : ((pool.rotate start).map (pieceSize mode tc)).sum
        = (pool.map (pieceSize mode tc)).sum :=
      List.Perm.sum_eq (List.Perm.map _ (List.rotate_perm pool start))
    have harg : (((0 + ((pool.rotate start).map (pieceSize mode tc)).sum : Nat)) : Int)
        ≤ target := by
      rw [Nat.zero_add, hperm]
      exact htot
    rw [accFull_total_fit target mode tc (pool.rotate start) 0 true harg]

theorem claim4_loop_terminates_witness :
    ((([['a'], ['b']] : List Str).map (pieceSize Mode.chars (fun _ => 0))).sum : Int) ≤ 10 ∧
      genLoop [['a'], ['b']] 10 Mode.chars (fun _ => 0) 1 5 1 0 []
        = genLoop [['a'], ['b']] 10 Mode.chars (fun _ => 0) 1 2 1 0 [] ∧
      generate_text [['a'], ['b']] 10 Mode.chars (fun _ => 0) 1
        = ((([['a'], ['b']] : List Str).rotate 1).map (fun p => p ++ newline2)).flatten :=
  ⟨by decide,
    (claim4_loop_terminates [['a'], ['b']] 10 Mode.chars (fun _ => 0) 1
      (by decide) (by decide)).1 5 (by decide),
    (claim4_loop_terminates [['a'], ['b']] 10 Mode.chars (fun _ => 0) 1
      (by decide) (by decide)).2 (by decide)⟩

/-- Claim C5, counterexample: with three paragraphs of raw lengths 40, 50 and
60, target 100, chars mode and start 0, the code appends paragraphs 0 and 1
with their separators, giving a result of total length 42 + 52 = 94 — not 92
as the claim states. -/
theorem claim5_counterexample :
    (generate_text [List.replicate 40 'a', List.replicate 50 'b', List.replicate 60 'c']
        100 Mode.chars (fun _ => 0) 0).length = 94
      ∧ (94 : Nat) ≠ 92 := by
  constructor
  · rfl
  · decide

/-- Claim C5 (amended): in chars mode, for any pool of 3 paragraphs of raw
lengths 40, 50 and 60 with start 0 and target 100, the accumulation appends
paragraph 0 (accumulated 42) and paragraph 1 (accumulated 94), stops because
paragraph 2 would push the total to 156 > 100, and returns paragraphs 0 and 1
concatenated with separators, of total length 94 ≤ 100. -/
theorem claim5_amended_scenario (p0 p1 p2 : Str) (tc : Str → Nat)
    (h0 : p0.length = 40) (h1 : p1.length = 50) (h2 : p2.length = 60) :
    generate_text [p0, p1, p2] 100 Mode.chars tc 0
      = (p0 ++ newline2) ++ (p1 ++ newline2)
    ∧ (generate_text [p0, p1, p2] 100 Mode.chars tc 0).length = 94 := by
  have n0 : pieceSize Mode.chars tc p0 = 42 := by
    simp [pieceSize, newline2, h0]
  have n1 : pieceSize Mode.chars tc p1 = 52 := by
    simp [pieceSize, newline2, h1]
  have n2 : pieceSize Mode.chars tc p2 = 62 := by
    simp [pieceSize, newline2, h2]
  have hres : generate_text [p0, p1, p2] 100 Mode.chars tc 0
      = (p0 ++ newline2) ++ (p1 ++ newline2) := by
    rw [generate_text_eq_accFull [p0, p1, p2] 100 Mode.chars tc 0 (by simp) (by simp)]
    rw [List.rotate_zero]
    have hc0 : ¬ (((0 : Nat) : Int) + (pieceSize Mode.chars tc p0 : Int) > 100) := by
      rw [n0]; norm_num
    have hc1 : ¬ (((0 + pieceSize Mode.chars tc p0 : Nat) : Int)
        + (pieceSize Mode.chars tc p1 : Int) > 100) := by
      rw [n0, n1]; norm_num
    have hc2 : (((0 + pieceSize Mode.chars tc p0 + pieceSize Mode.chars tc p1 : Nat) : Int)
        + (pieceSize Mode.chars tc p2 : Int) > 100) := by
      rw [n0, n1, n2]; norm_num
    simp only [accFull, if_neg hc0, if_neg hc1, if_pos hc2]
    simp
  refine ⟨hres, ?_⟩
  rw [hres]
  simp [newline2, h0, h1]

theorem claim5_amended_scenario_witness :
    (List.replicate 40 'a').length = 40 ∧
      (generate_text [List.replicate 40 'a', List.replicate 50 'b', List.replicate 60 'c']
          100 Mode.chars (fun _ => 0) 0
        = (List.replicate 40 'a' ++ newline2) ++ (List.replicate 50 'b' ++ newline2)
      ∧ (generate_text [List.replicate 40 'a', List.replicate 50 'b', List.replicate 60 'c']
          100 Mode.chars (fun _ => 0) 0).length = 94) :=
  ⟨by simp only [List.length_replicate],
    claim5_amended_scenario (List.replicate 40 'a') (List.replicate 50 'b')
      (List.replicate 60 'c') (fun _ => 0) (by simp only [List.length_replicate])
      (by simp only [List.length_replicate]) (by simp only [List.length_replicate])⟩

/-- Claim C6: in chars mode, for a pool containing a single paragraph of 500
characters and target 50, the accumulation returns the first 48 characters of
the paragraph followed by the two-character separator — a string of length
exactly 50. -/
theorem claim6_single_paragraph (p : Str) (tc : Str → Nat) (hp : p.length = 500) :
    generate_text [p] 50 Mode.chars tc 0 = p.take 48 ++ newline2
    ∧ (generate_text [p] 50 Mode.chars tc 0).length = 50 := by
  have hov : (pieceSize Mode.chars tc (([p] : List Str).getD 0 []) : Int) > 50 := by
    have : pieceSize Mode.chars tc p = 502 := by
      simp [pieceSize, newline2, hp]
    simp only [List.getD, List.get?, Option.getD, this]
    norm_num
  have h1 := chars_overflow_result [p] 50 tc 0 (by simp) (by simp) hov
  have hslice : pySliceTake (([p] : List Str).getD 0 []) (50 - 2) = p.take 48 := by
    unfold pySliceTake
    rw [if_pos (by norm_num)]
    rfl
  rw [hslice] at h1
  refine ⟨h1, ?_⟩
  rw [h1]
  simp [newline2, List.length_take, hp]

theorem claim6_single_paragraph_witness :
    (List.replicate 500 'a').length = 500 ∧
      (generate_text [List.replicate 500 'a'] 50 Mode.chars (fun _ => 0) 0
          = (List.replicate 500 'a').take 48 ++ newline2
      ∧ (generate_text [List.replicate 500 'a'] 50 Mode.chars (fun _ => 0) 0).length = 50) :=
  ⟨by simp only [List.length_replicate],
    claim6_single_paragraph (List.replicate 500 'a') (fun _ => 0)
      (by simp only [List.length_replicate])⟩

/-- Claim C7: when every paragraph's measured size exceeds the target, the
result of the accumulation equals exactly the truncated fragment produced by
the first-paragraph-overflow branch applied to the start paragraph; and this
result may be the empty string when the target is below the separator
overhead (second conjunct: a tokens-mode instance where no word fits and the
result is empty). -/
theorem claim7_all_paragraphs_too_big (pool : List Str) (target : Int) (mode : Mode)
    (tc : Str → Nat) (start : Nat) (hpool : pool ≠ []) (hs : start < pool.length)
    (hbig : ∀ p ∈ pool, (pieceSize mode tc p : Int) > target) :
    generate_text pool target mode tc start
      = (fragPieces mode tc (pool.getD start []) target).flatten
    ∧ generate_text [['a', 'b']] 1 Mode.tokens (fun s => s.length) 0 = [] := by
  constructor
  · rw [generate_text_eq_accFull pool target mode tc start hpool hs]
    have hrne := rotate_ne_nil pool start hpool
    have hmem : (pool.rotate start).getD 0 [] ∈ pool := by
      rw [rotate_getD_zero pool start hs, getD_eq_get _ _ hs]
      exact List.getElem_mem hs
    have hov : ((0 : Nat) : Int)
        + (pieceSize mode tc ((pool.rotate start).getD 0 []) : Int) > target := by
      have h := hbig _ hmem
      push_cast at h ⊢
      omega
    obtain ⟨h1, _⟩ := accFull_first_overflow target mode tc (pool.rotate start) 0 hrne hov
    rw [h1, rotate_getD_zero pool start hs]
  · rfl

theorem claim7_all_paragraphs_too_big_witness :
    (∀ p ∈ ([['a', 'b', 'c']] : List Str), (pieceSize Mode.chars (fun _ => 0) p : Int) > 1) ∧
      (generate_text [['a', 'b', 'c']] 1 Mode.chars (fun _ => 0) 0
          = (fragPieces Mode.chars (fun _ => 0)
              (([['a', 'b', 'c']] : List Str).getD 0 []) 1).flatten
      ∧ generate_text [['a', 'b']] 1 Mode.tokens (fun s => s.length) 0 = []) :=
  ⟨by decide, claim7_all_paragraphs_too_big [['a', 'b', 'c']] 1 Mode.chars (fun _ => 0) 0
    (by decide) (by decide) (by decide)⟩

/-- Claim C8: in tokens mode, when the first candidate paragraph overflows the
budget, the split divides the paragraph into whitespace-delimited words and
greedily accepts a prefix of them, each word measured as the token count of
the word followed by one space, with the running sum staying ≤ the budget and
stopping exactly when the next word would overflow; the result is the
accepted words joined with single spaces followed by the separator, or the
empty string when zero words fit. -/
theorem claim8_tokens_overflow_split (pool : List Str) (target : Int) (tc : Str → Nat)
    (start : Nat) (hpool : pool ≠ []) (hs : start < pool.length) (ht : 0 ≤ target)
    (hov : (tc (pool.getD start []) : Int) > target) :
    ∃ k ≤ (pyWords (pool.getD start [])).length,
      takeWords tc target (pyWords (pool.getD start [])) 0
          = (pyWords (pool.getD start [])).take k
      ∧ (wordsSize tc ((pyWords (pool.getD start [])).take k) : Int) ≤ target
      ∧ (k = (pyWords (pool.getD start [])).length
          ∨ target < (wordsSize tc ((pyWords (pool.getD start [])).take (k + 1)) : Int))
      ∧ generate_text pool target Mode.tokens tc start
          = (if k = 0 then ([] : Str)
              else List.intercalate [' '] ((pyWords (pool.getD start [])).take k)
                ++ newline2) := by
  obtain ⟨k, hk, heq, hsum, hstop⟩ :=
    takeWords_spec tc target (pyWords (pool.getD start [])) 0 (by push_cast; omega)
  refine ⟨k, hk, heq, by push_cast at hsum ⊢; omega, ?_, ?_⟩
  · rcases hstop with hstop | hstop
    · exact Or.inl hstop
    · refine Or.inr ?_
      push_cast at hstop ⊢
      omega
  · rw [generate_text_eq_accFull pool target Mode.tokens tc start hpool hs]
    have hrne := rotate_ne_nil pool start hpool
    have hov0 : ((0 : Nat) : Int)
        + (pieceSize Mode.tokens tc ((pool.rotate start).getD 0 []) : Int) > target := by
      rw [rotate_getD_zero pool start hs]
      simp only [pieceSize]
      push_cast at hov ⊢
      omega
    obtain ⟨h1, _⟩ :=
      accFull_first_overflow target Mode.tokens tc (pool.rotate start) 0 hrne hov0
    rw [h1, rotate_getD_zero pool start hs]
    simp only [fragPieces]
    rw [heq]
    by_cases hk0 : k = 0
    · subst hk0
      simp
    · have hword : (pyWords (pool.getD start [])).take k ≠ [] := by
        intro hnil
        rcases List.take_eq_nil_iff.mp hnil with h0 | h0
        · exact hk0 h0
        · rw [h0] at hk
          simp at hk
          exact hk0 hk
      rw [if_neg hk0]
      have hie : ((pyWords (pool.getD start [])).take k).isEmpty = false := by
        rw [List.isEmpty_eq_false]
        exact hword
      rw [hie]
      simp

theorem claim8_tokens_overflow_split_witness :
    ((0 : Int) ≤ 2) ∧
      (((fun (s : Str) => s.length) (([['a', ' ', 'b']] : List Str).getD 0 []) : Int) > 2) ∧
      (∃ k ≤ (pyWords (([['a', ' ', 'b']] : List Str).getD 0 [])).length,
        takeWords (fun s => s.length) 2 (pyWords (([['a', ' ', 'b']] : List Str).getD 0 [])) 0
            = (pyWords (([['a', ' ', 'b']] : List Str).getD 0 [])).take k
        ∧ (wordsSize (fun s => s.length)
            ((pyWords (([['a', ' ', 'b']] : List Str).getD 0 [])).take k) : Int) ≤ 2
        ∧ (k = (pyWords (([['a', ' ', 'b']] : List Str).getD 0 [])).length
            ∨ 2 < (wordsSize (fun s => s.length)
                ((pyWords (([['a', ' ', 'b']] : List Str).getD 0 [])).take (k + 1)) : Int))
        ∧ generate_text [['a', ' ', 'b']] 2 Mode.tokens (fun s => s.length) 0
            = (if k = 0 then ([] : Str)
                else List.intercalate [' ']
                  ((pyWords (([['a', ' ', 'b']] : List Str).getD 0 [])).take k)
                  ++ newline2)) :=
  ⟨by decide, by decide,
    claim8_tokens_overflow_split [['a', ' ', 'b']] 2 (fun s => s.length) 0
      (by decide) (by decide) (by decide) (by decide)⟩

/-- Claim C9: in chars mode, for every non-empty pool, every target and every
start index, the returned string is non-empty and ends with the two-character
separator (the chars-mode overflow branch always appends the separator, so an
empty result is impossible in chars mode). -/
theorem claim9_chars_nonempty_ends_sep (pool : List Str) (target : Int) (tc : Str → Nat)
    (start : Nat) (hpool : pool ≠ []) (hs : start < pool.length) :
    generate_text pool target Mode.chars tc start ≠ []
    ∧ ∃ s, generate_text pool target Mode.chars tc start = s ++ newline2 := by
  have hrne := rotate_ne_nil pool start hpool
  have hne := accFull_chars_ne target tc (pool.rotate start) 0 hrne
  obtain ⟨s, hsep⟩ := flatten_ends_newline2 _ hne
    (fun q hq => accFull_chars_pieces target tc (pool.rotate start) 0 true q hq)
  rw [generate_text_eq_accFull pool target Mode.chars tc start hpool hs]
  constructor
  · rw [hsep]
    simp [newline2]
  · exact ⟨s, hsep⟩

theorem claim9_chars_nonempty_ends_sep_witness :
    ([['a']] : List Str) ≠ [] ∧
      (generate_text [['a']] 5 Mode.chars (fun _ => 0) 0 ≠ []
      ∧ ∃ s, generate_text [['a']] 5 Mode.chars (fun _ => 0) 0 = s ++ newline2) :=
  ⟨by decide, claim9_chars_nonempty_ends_sep [['a']] 5 (fun _ => 0) 0 (by decide) (by decide)⟩

/-- Claim C10: one accumulation call appends each pool index's paragraph at
most once: the result is either the concatenation of the first `k ≤ len pool`
paragraphs in cyclic order from `start`, each followed by the separator, or —
only when no whole paragraph was appended at all — the flattening of the
overflow fragment of the start paragraph. -/
theorem claim10_cyclic_prefix_structure (pool : List Str) (target : Int) (mode : Mode)
    (tc : Str → Nat) (start : Nat) (hpool : pool ≠ []) (hs : start < pool.length) :
    (∃ k ≤ pool.length, generate_text pool target mode tc start
        = (((pool.rotate start).take k).map (fun p => p ++ newline2)).flatten)
    ∨ generate_text pool target mode tc start
        = (fragPieces mode tc (pool.getD start []) target).flatten := by
  rw [generate_text_eq_accFull pool target mode tc start hpool hs]
  have hrne := rotate_ne_nil pool start hpool
  have hlen : (pool.rotate start).length = pool.length := List.length_rotate pool start
  have hhead : (pool.rotate start).getD 0 [] = pool.getD start [] :=
    rotate_getD_zero pool start hs
  rcases hrot : pool.rotate start with _ | ⟨p, ps⟩
  · exact absurd hrot hrne
  · rw [hrot] at hlen hhead
    by_cases hc : ((0 : Nat) : Int) + (pieceSize mode tc p : Int) > target
    · right
      obtain ⟨h1, _⟩ := accFull_first_overflow target mode tc (p :: ps) 0 (by simp) hc
      rw [h1]
      have hp : (p :: ps).getD 0 [] = p := rfl
      rw [hp] at hhead
      rw [hp, hhead]
    · left
      obtain ⟨k, hk, hsh⟩ :=
        accFull_false_shape target mode tc ps (0 + pieceSize mode tc p)
      refine ⟨k + 1, ?_, ?_⟩
      · simp only [List.length_cons] at hlen
        omega
      · have hcons : accFull target mode tc (p :: ps) 0 true
            = ((p ++ newline2) ::
                (accFull target mode tc ps (0 + pieceSize mode tc p) false).1,
              (accFull target mode tc ps (0 + pieceSize mode tc p) false).2) := by
          simp only [accFull]
          rw [if_neg hc]
        rw [hcons]
        simp only [List.take_succ_cons, List.map_cons, List.flatten_cons]
        rw [hsh]

theorem claim10_cyclic_prefix_structure_witness :
    ([['a'], ['b']] : List Str) ≠ [] ∧
      ((∃ k ≤ ([['a'], ['b']] : List Str).length,
          generate_text [['a'], ['b']] 10 Mode.chars (fun _ => 0) 1
            = (((([['a'], ['b']] : List Str).rotate 1).take k).map
                (fun p => p ++ newline2)).flatten)
      ∨ generate_text [['a'], ['b']] 10 Mode.chars (fun _ => 0) 1
          = (fragPieces Mode.chars (fun _ => 0)
              (([['a'], ['b']] : List Str).getD 1 []) 10).flatten) :=
  ⟨by decide, claim10_cyclic_prefix_structure [['a'], ['b']] 10 Mode.chars (fun _ => 0) 1
    (by decide) (by decide)⟩
